import Mathlib

/-!
Verification of the comment-wise batching pipeline and CRF training head of
the argument-mining segmentation script
(`exp_scripts/segmentation/5_cons_ft_runs_bert_Kripp_alpha.py`), together
with the label-scheme configuration (`datasets/persuasive_essays/configs.py`).

Token ids, mask values and label ids are embedded as integers, token
sequences as `List ℤ`, batches as parallel lists of rows.  Real-valued
tensor arithmetic (cross-entropy) is embedded over `ℝ`; the transformer
encoder, the CRF layer's log-likelihood and its Viterbi decoder are
external collaborators and enter as function parameters.
-/

namespace ArgMining

/-! ## Label-scheme configuration (configs.py) -/

/-- Base `arg_components` tag map: `{"O": 0, "B-C": 1, "I-C": 2, "B-P": 3, "I-P": 4}`. -/
def base_arg_components : List (String × ℕ) :=
  [("O", 0), ("B-C", 1), ("I-C", 2), ("B-P", 3), ("I-P", 4)]

/-- Configuration flag `all_classes` (configs.py sets it to `True`). -/
def all_classes : Bool := true

/-- Tag map after the conditional update
`config["arg_components"].update({"B-MC": 5, "I-MC": 6})` guarded by `all_classes`. -/
def arg_components : List (String × ℕ) :=
  if all_classes then base_arg_components ++ [("B-MC", 5), ("I-MC", 6)]
  else base_arg_components

/-- Configured maximum sequence length (`config["max_len"] = 512`). -/
def config_max_len : ℕ := 512

/-- Configured batch-size constant (`config["batch_size"] = 512*8`). -/
def config_batch_size : ℕ := 512 * 8

/-- Pad value for component-type labels: the id of the `"O"` tag
(`config["pad_for"]["comp_type_labels"]`). -/
def pad_for_comp_type_labels : ℤ := 0

/-- Lookup of a tag's id in `arg_components` (`ac_dict[...]` in the script). -/
def ac_id (tag : String) : ℕ :=
  ((arg_components.find? (fun p => p.1 = tag)).map (fun p => p.2)).getD 0

/-! ## Thread splitter (`split_encoding`) -/

/-- Loop of `split_encoding`: `done` holds the finished sub-lists, `cur` the
sub-list currently being extended (the mutable `splitted[-1]`).  A sentinel in
`split_on` opens a fresh sub-list before being appended; the `eos_token_id`
is appended and then the scan `break`s. -/
def splitLoop (split_on : List ℤ) (eos_token_id : ℤ) :
    List ℤ → List (List ℤ) → List ℤ → List (List ℤ)
  | [], done, cur => done ++ [cur]
  | e :: rest, done, cur =>
    if e ∈ split_on then
      if e = eos_token_id then done ++ [cur, [e]]
      else splitLoop split_on eos_token_id rest (done ++ [cur]) [e]
    else
      if e = eos_token_id then done ++ [cur ++ [e]]
      else splitLoop split_on eos_token_id rest done (cur ++ [e])

/-- Splits `tokenized_thread` into sub-lists at each occurrence of an id in
`split_on`, stopping right after the first `eos_token_id` (inclusive). -/
def split_encoding (tokenized_thread : List ℤ) (split_on : List ℤ)
    (eos_token_id : ℤ) : List (List ℤ) :=
  splitLoop split_on eos_token_id tokenized_thread [] []

/-- Truncation of a sequence at the first occurrence of the terminator id,
keeping the terminator; the whole sequence when no terminator occurs.  This is
the reference function the splitter's concatenation is compared against. -/
def truncAtEos (eos_token_id : ℤ) : List ℤ → List ℤ
  | [] => []
  | e :: rest => if e = eos_token_id then [e] else e :: truncAtEos eos_token_id rest

/-! ## Batch padder (`pad_batch`) -/

/-- Pads every list in `elems` to the maximum length occurring in `elems`,
using `pad_token_id` as fill.  Python's `max([])` raises, so the empty
collection yields `none`. -/
def pad_batch (elems : List (List ℤ)) (pad_token_id : ℤ) : Option (List (List ℤ)) :=
  match (elems.map List.length).max? with
  | none => none
  | some max_len =>
      some (elems.map (fun elem => elem ++ List.replicate (max_len - elem.length) pad_token_id))

/-- Total wrapper around `pad_batch` used inside the generator, where the
buffer is non-empty at every emission point. -/
def padBatchD (elems : List (List ℤ)) (pad_token_id : ℤ) : List (List ℤ) :=
  (pad_batch elems pad_token_id).getD []

/-! ## Comment-wise dataset generator (`get_comment_wise_dataset`) -/

/-- Inner loop of the accumulation phase: for each sub-list `elem` produced by
the splitter, the same-length prefixes of the running mask and label suffixes
are taken, and the suffix cursors advance by `len(elem)`. -/
def alignSplits : List (List ℤ) → List ℤ → List ℤ → List (List ℤ × List ℤ × List ℤ)
  | [], _, _ => []
  | elem :: rest, masked_thread, comp_type_label =>
    (elem, masked_thread.take elem.length, comp_type_label.take elem.length) ::
      alignSplits rest (masked_thread.drop elem.length) (comp_type_label.drop elem.length)

/-- Accumulation phase of `get_comment_wise_dataset`: every thread of every
dataset entry (already squeezed along the leading device axis; the fourth
field is ignored) is split into comments, each paired with the aligned mask
and label prefixes. -/
def commentTriples {σ : Type} (dataset : List (List (List ℤ) × List (List ℤ) × List (List ℤ) × σ))
    (user_token_indices : List ℤ) (eos_token_id : ℤ) : List (List ℤ × List ℤ × List ℤ) :=
  dataset.flatMap (fun entry =>
    (entry.1.zip (entry.2.1.zip entry.2.2.1)).flatMap (fun row =>
      alignSplits (split_encoding row.1 user_token_indices eos_token_id) row.2.1 row.2.2))

/-- Batching phase of `get_comment_wise_dataset`: comments are truncated to
`max_len` and appended to three parallel buffers; after the `i`-th comment,
when `i % batch_size == 0`, the padded buffers are emitted and cleared.  The
trailing partial buffer is never emitted. -/
def cwLoop (pad_token_id pad_label : ℤ) (max_len batch_size : ℕ) :
    List (List ℤ × List ℤ × List ℤ) → List (List ℤ) → List (List ℤ) → List (List ℤ) → ℕ →
    List (List (List ℤ) × List (List ℤ) × List (List ℤ))
  | [], _, _, _, _ => []
  | (t, m, l) :: rest, buf_t, buf_m, buf_l, i =>
    let buf_t := buf_t ++ [t.take max_len]
    let buf_m := buf_m ++ [m.take max_len]
    let buf_l := buf_l ++ [l.take max_len]
    if (i + 1) % batch_size = 0 then
      (padBatchD buf_t pad_token_id, padBatchD buf_m pad_token_id, padBatchD buf_l pad_label) ::
        cwLoop pad_token_id pad_label max_len batch_size rest [] [] [] (i + 1)
    else
      cwLoop pad_token_id pad_label max_len batch_size rest buf_t buf_m buf_l (i + 1)

/-- List of batches emitted by the generator `get_comment_wise_dataset`: the
splitter/alignment phase followed by the truncate-pad-emit loop. -/
def get_comment_wise_dataset {σ : Type}
    (dataset : List (List (List ℤ) × List (List ℤ) × List (List ℤ) × σ))
    (user_token_indices : List ℤ) (eos_token_id pad_token_id pad_label : ℤ)
    (max_len batch_size : ℕ) :
    List (List (List ℤ) × List (List ℤ) × List (List ℤ)) :=
  cwLoop pad_token_id pad_label max_len batch_size
    (commentTriples dataset user_token_indices eos_token_id) [] [] [] 0

/-! ## CRF head configuration (`allowed_transitions`, `get_crf_head`) -/

/-- Fixed allowed tag-transition pairs passed to the CRF constructor, built
from `ac_dict` exactly as in the script. -/
def allowed_transitions : List (ℕ × ℕ) :=
  [(ac_id "B-C", ac_id "I-C"), (ac_id "B-P", ac_id "I-P")] ++
  (["I-C", "B-C", "B-P", "O"].map (fun ct => (ac_id "I-C", ac_id ct))) ++
  (["I-P", "B-C", "B-P", "O"].map (fun ct => (ac_id "I-P", ac_id ct))) ++
  (["O", "B-C", "B-P"].map (fun ct => (ac_id "O", ac_id ct)))

/-- Number of tags the CRF is constructed with: `num_tags=len(ac_dict)`. -/
def crf_num_tags : ℕ := arg_components.length

/-- Output width of the linear projection: `nn.Linear(hidden_size, len(ac_dict))`. -/
def linear_out_features : ℕ := arg_components.length

/-! ## Cross-entropy layer and `compute` -/

/-- Class-weight vector of `cross_entropy_layer`:
`torch.log(torch.tensor([3.3102, 61.4809, 3.6832, 49.6827, 2.5639]))`. -/
noncomputable def cross_entropy_weights : List ℝ :=
  [Real.log 3.3102, Real.log 61.4809, Real.log 3.6832, Real.log 49.6827, Real.log 2.5639]

/-- Log-sum-exp of a list of scores (the normalizer of `softmax`). -/
noncomputable def logSumExp (xs : List ℝ) : ℝ := Real.log ((xs.map Real.exp).sum)

/-- Per-token loss of `nn.CrossEntropyLoss(weight=w, reduction='none')` on one
logit row `x` with target class `y`: `w[y] * (logSumExp x - x[y])`.  It is
defined (`some`) only when the weight vector matches the class count of the
row and the target is a valid class index; otherwise torch raises. -/
noncomputable def ceToken (w x : List ℝ) (y : ℤ) : Option ℝ :=
  if x.length = w.length ∧ 0 ≤ y ∧ y.toNat < w.length then
    some (w.getD y.toNat 0 * (logSumExp x - x.getD y.toNat 0))
  else none

/-- Strict addition of optional reals: `none` as soon as either side is `none`. -/
def optionAdd : Option ℝ → Option ℝ → Option ℝ
  | some a, some b => some (a + b)
  | _, _ => none

/-- Sum of a list of optional reals: `none` as soon as any element is `none`. -/
def optionSum : List (Option ℝ) → Option ℝ
  | [] => some 0
  | o :: rest => optionAdd o (optionSum rest)

/-- Pad mask derived inside `compute`:
`torch.where(tokenized_threads != pad_token_id, 1, 0)`. -/
def padMaskOf (pad_token_id : ℤ) (tokenized_threads : List (List ℤ)) : List (List ℕ) :=
  tokenized_threads.map (fun row => row.map (fun t => if t ≠ pad_token_id then 1 else 0))

/-- Loss/decode head `compute`.  The composed transformer-plus-linear
projection enters as `encoder`, the CRF collaborators as `crf_log_likelihood`
and `viterbi_tags`.  The batch is `(tokenized_threads, token_type_ids,
comp_type_labels)`; its second component is unpacked by the source but never
used.  With `preds` the Viterbi decodes are returned; otherwise the loss,
optionally adding the padding-masked weighted cross-entropy computed over the
flattened (`reshape(-1, ...)`) logits, mask and labels. -/
noncomputable def compute
    (encoder : List (List ℤ) → List (List ℕ) → List (List (List ℝ)))
    (crf_log_likelihood : List (List (List ℝ)) → List (List ℤ) → List (List ℕ) → ℝ)
    (viterbi_tags : List (List (List ℝ)) → List (List ℕ) → List (List ℕ × ℝ))
    (pad_token_id : ℤ)
    (batch : List (List ℤ) × List (List ℤ) × List (List ℤ))
    (preds cross_entropy : Bool) : List (List ℕ × ℝ) ⊕ Option ℝ :=
  let tokenized_threads := batch.1
  let comp_type_labels := batch.2.2
  let pad_mask := padMaskOf pad_token_id tokenized_threads
  let logits := encoder tokenized_threads pad_mask
  if preds then Sum.inl (viterbi_tags logits pad_mask)
  else
    let log_likelihood := crf_log_likelihood logits comp_type_labels pad_mask
    if cross_entropy then
      let ce_terms := (pad_mask.flatten.zip (logits.flatten.zip comp_type_labels.flatten)).map
        (fun p => (ceToken cross_entropy_weights p.2.1 p.2.2).map (fun v => (p.1 : ℝ) * v))
      Sum.inr ((optionSum ce_terms).map (fun s => s - log_likelihood))
    else Sum.inr (some (-log_likelihood))

/-- Per-token cross-entropy value without the definedness guard, used by the
reference formulations below. -/
noncomputable def ceRaw (w x : List ℝ) (y : ℤ) : ℝ :=
  w.getD y.toNat 0 * (logSumExp x - x.getD y.toNat 0)

/-- Reference formulation of the claimed cross-entropy term: the class-weighted
per-token cross-entropy summed only over the non-pad positions of the
flattened batch. -/
noncomputable def maskedCESum (w : List ℝ) (ms : List ℕ) (xs : List (List ℝ)) (ys : List ℤ) : ℝ :=
  (((ms.zip (xs.zip ys)).filter (fun p => p.1 ≠ 0)).map (fun p => ceRaw w p.2.1 p.2.2)).sum

/-- Number of non-pad positions of a flattened mask. -/
def nonPadCount (ms : List ℕ) : ℕ := (ms.filter (fun m => m ≠ 0)).length

/-- Reference formulation of a length-normalized masked cross-entropy term:
the masked sum divided by the number of non-pad positions. -/
noncomputable def maskedCEMean (w : List ℝ) (ms : List ℕ) (xs : List (List ℝ)) (ys : List ℤ) : ℝ :=
  maskedCESum w ms xs ys / (nonPadCount ms : ℝ)

/-! ## Training loop (`train`) -/

/-- Observable events of the training loop: gradient reset, backpropagation of
a (scaled) loss value, optimizer step. -/
inductive TrainEvent
  | zero_grad : TrainEvent
  | backward : ℚ → TrainEvent
  | step : TrainEvent
deriving DecidableEq

/-- Gradient-accumulation window of `train` (`accumulate_over = 4`). -/
def accumulate_over : ℕ := 4

/-- Body of the training loop over the per-batch loss values returned by
`compute`: each loss is scaled by `1/data_config["batch_size"]` and
backpropagated; after the batch with counter `i`, when
`i % accumulate_over == accumulate_over - 1`, an optimizer step and a gradient
reset are performed. -/
def trainLoop (losses : List ℚ) (i : ℕ) : List TrainEvent :=
  match losses with
  | [] => []
  | loss :: rest =>
    TrainEvent.backward (loss / (config_batch_size : ℚ)) ::
      ((if i % accumulate_over = accumulate_over - 1
        then [TrainEvent.step, TrainEvent.zero_grad] else []) ++
       trainLoop rest (i + 1))

/-- Event trace of `train`, abstracted over the list of per-batch loss values:
an initial `optimizer.zero_grad()`, the loop, and the final unconditional
`optimizer.step()`. -/
def train (losses : List ℚ) : List TrainEvent :=
  TrainEvent.zero_grad :: trainLoop losses 0 ++ [TrainEvent.step]

/-- Reference trace following the claim's words: the batches are consumed in
windows of four; each full window ends with an optimizer step and a gradient
reset, a trailing partial window performs backpropagations only. -/
def trainChunksRef (losses : List ℚ) : List TrainEvent :=
  if h : losses = [] then []
  else
    ((losses.take 4).map (fun b => TrainEvent.backward (b / (config_batch_size : ℚ)))) ++
    ((if 4 ≤ losses.length then [TrainEvent.step, TrainEvent.zero_grad] else []) ++
     trainChunksRef (losses.drop 4))
termination_by losses.length
decreasing_by
  have : losses.length ≠ 0 := fun hl => h (List.length_eq_zero.mp hl)
  simp only [List.length_drop]
  omega

/-! ## Lemmas about the splitter -/

theorem splitLoop_eq_append (s : List ℤ) (eos : ℤ) (xs : List ℤ) :
    ∀ done cur, splitLoop s eos xs done cur = done ++ splitLoop s eos xs [] cur := by
  induction xs with
  | nil => intro done cur; simp [splitLoop]
  | cons e rest ih =>
    intro done cur
    simp only [splitLoop]
    split_ifs
    · simp
    · rw [ih (done ++ [cur]) [e], ih ([] ++ [cur]) [e]]
      simp
    · simp
    · rw [ih done (cur ++ [e])]

theorem splitLoop_flatten (s : List ℤ) (eos : ℤ) (xs : List ℤ) :
    ∀ done cur, (splitLoop s eos xs done cur).flatten =
      done.flatten ++ cur ++ truncAtEos eos xs := by
  induction xs with
  | nil => intro done cur; simp [splitLoop, truncAtEos]
  | cons e rest ih =>
    intro done cur
    simp only [splitLoop, truncAtEos]
    split_ifs
    · simp
    · rw [ih (done ++ [cur]) [e]]
      simp
    · simp
    · rw [ih done (cur ++ [e])]
      simp

theorem splitLoop_head (s : List ℤ) (eos : ℤ) (xs : List ℤ) :
    ∀ cur, ∃ t, (splitLoop s eos xs [] cur).head? = some (cur ++ t) := by
  induction xs with
  | nil => intro cur; exact ⟨[], by simp [splitLoop]⟩
  | cons e rest ih =>
    intro cur
    simp only [splitLoop]
    split_ifs
    · exact ⟨[], by simp⟩
    · exact ⟨[], by rw [splitLoop_eq_append s eos rest ([] ++ [cur]) [e]]; simp⟩
    · exact ⟨[e], by simp⟩
    · obtain ⟨t, ht⟩ := ih (cur ++ [e])
      exact ⟨[e] ++ t, by rw [ht]; simp⟩

theorem splitLoop_tail_starts_with_sentinel (s : List ℤ) (eos : ℤ) (xs : List ℤ) :
    ∀ cur, ∀ sub ∈ (splitLoop s eos xs [] cur).tail,
      ∃ c, sub.head? = some c ∧ c ∈ s := by
  induction xs with
  | nil => intro cur sub h; simp [splitLoop] at h
  | cons e rest ih =>
    intro cur sub hsub
    simp only [splitLoop] at hsub
    split_ifs at hsub with h1 h2 h2
    · simp at hsub
      exact ⟨e, by simp [hsub], h1⟩
    · rw [splitLoop_eq_append s eos rest ([] ++ [cur]) [e]] at hsub
      simp only [List.nil_append, List.singleton_append, List.tail_cons] at hsub
      obtain ⟨t, ht⟩ := splitLoop_head s eos rest [e]
      cases hL : splitLoop s eos rest [] [e] with
      | nil => rw [hL] at hsub; simp at hsub
      | cons a as =>
        rw [hL] at hsub ht
        simp only [List.head?_cons, Option.some.injEq] at ht
        rcases List.mem_cons.mp hsub with rfl | htl
        · exact ⟨e, by simp [ht], h1⟩
        · exact ih [e] sub (by rw [hL]; exact htl)
    · simp at hsub
    · exact ih (cur ++ [e]) sub hsub

theorem truncAtEos_of_not_mem (eos : ℤ) (xs : List ℤ) (h : eos ∉ xs) :
    truncAtEos eos xs = xs := by
  induction xs with
  | nil => rfl
  | cons e rest ih =>
    simp only [List.mem_cons, not_or] at h
    have hne : e ≠ eos := fun he => h.1 he.symm
    simp only [truncAtEos, if_neg hne]
    rw [ih h.2]

theorem truncAtEos_length_le (eos : ℤ) (xs : List ℤ) :
    (truncAtEos eos xs).length ≤ xs.length := by
  induction xs with
  | nil => simp [truncAtEos]
  | cons e rest ih =>
    simp only [truncAtEos]
    split_ifs <;> simp <;> omega

/-! ## Lemmas about the padder -/

theorem max?_le_of_mem {l : List ℕ} {m b : ℕ} (hm : l.max? = some m) (hb : b ∈ l) :
    b ≤ m := by
  rw [List.max?_eq_some_iff] at hm
  · exact hm.2 b hb
  · intro a; exact Nat.le_refl a
  · intro a b; exact max_choice a b
  · intro a b c; exact Nat.max_le

theorem padBatchD_map_length (elems : List (List ℤ)) (pad : ℤ) :
    (padBatchD elems pad).map List.length =
      List.replicate elems.length (((elems.map List.length).max?).getD 0) := by
  unfold padBatchD pad_batch
  cases hm : (elems.map List.length).max? with
  | none =>
    have : elems = [] := by
      have := List.max?_eq_none_iff.mp hm
      simpa using this
    subst this
    simp
  | some m =>
    simp only [Option.getD_some, List.map_map]
    rw [List.map_congr_left (fun e he => ?_), List.map_const']
    have hle : e.length ≤ m := max?_le_of_mem hm (List.mem_map_of_mem List.length he)
    simp only [Function.comp_apply, List.length_append, List.length_replicate]
    omega

theorem padBatchD_length (elems : List (List ℤ)) (pad : ℤ) :
    (padBatchD elems pad).length = elems.length := by
  have h := congrArg List.length (padBatchD_map_length elems pad)
  simpa using h

/-! ## Claims C2, C6, C7 -/

/-- C2: for every input token sequence, split set and terminator id,
concatenating the sub-sequences returned by `split_encoding` equals the input
truncated at the first occurrence of the terminator (inclusive), and equals
the whole input when no terminator occurs. -/
theorem C2_split_encoding_flatten (xs split_on : List ℤ) (eos : ℤ) :
    (split_encoding xs split_on eos).flatten = truncAtEos eos xs ∧
    (eos ∉ xs → (split_encoding xs split_on eos).flatten = xs) := by
  constructor
  · simpa using splitLoop_flatten split_on eos xs [] []
  · intro h
    have := splitLoop_flatten split_on eos xs [] []
    simpa [truncAtEos_of_not_mem eos xs h] using this

/-- Witness for C2 at a concrete input without a terminator. -/
theorem C2_split_encoding_flatten_witness :
    (999 : ℤ) ∉ ([1, 100, 2] : List ℤ) ∧
    (split_encoding [1, 100, 2] [100] 999).flatten = [1, 100, 2] :=
  ⟨by decide, (C2_split_encoding_flatten [1, 100, 2] [100] 999).2 (by decide)⟩

/-- C6: `pad_batch` on the empty collection of sequences fails (Python's
`max([])` raises) instead of returning a malformed result. -/
theorem C6_pad_batch_empty_fails (pad_token_id : ℤ) :
    pad_batch [] pad_token_id = none := rfl

/-- C7: on `[A, SENT, B, C, EOS, D]` with split set `{SENT}` and terminator
`EOS`, `split_encoding` returns exactly `[[A], [SENT, B, C, EOS]]`; moreover
every sub-sequence after the first begins with a split-sentinel id. -/
theorem C7_split_encoding_scenario :
    split_encoding [1, 100, 2, 3, 999, 4] [100] 999 = [[1], [100, 2, 3, 999]] ∧
    (∀ (xs split_on : List ℤ) (eos : ℤ), ∀ sub ∈ (split_encoding xs split_on eos).tail,
      ∃ c, sub.head? = some c ∧ c ∈ split_on) :=
  ⟨by decide,
   fun xs split_on eos sub hsub =>
     splitLoop_tail_starts_with_sentinel split_on eos xs [] sub hsub⟩

/-- Witness for C7's general clause at a concrete input. -/
theorem C7_split_encoding_scenario_witness :
    ([100, 2, 999] : List ℤ) ∈ (split_encoding [1, 100, 2, 999] [100] 999).tail ∧
    ∃ c, ([100, 2, 999] : List ℤ).head? = some c ∧ c ∈ ([100] : List ℤ) :=
  ⟨by decide,
   C7_split_encoding_scenario.2 [1, 100, 2, 999] [100] 999 [100, 2, 999] (by decide)⟩

/-! ## Lemmas about the generator: stream alignment (C1) -/

theorem getD_length_eq (l : List (List ℤ)) (i : ℕ) :
    (l.getD i []).length = (l.map List.length).getD i 0 := by
  induction l generalizing i with
  | nil => simp [List.getD]
  | cons e rest ih =>
    cases i with
    | zero => simp [List.getD]
    | succ j => simpa [List.getD] using ih j

theorem alignSplits_aligned :
    ∀ (splits : List (List ℤ)) (m l : List ℤ),
      splits.flatten.length ≤ m.length → splits.flatten.length ≤ l.length →
      ∀ p ∈ alignSplits splits m l,
        p.2.1.length = p.1.length ∧ p.2.2.length = p.1.length := by
  intro splits
  induction splits with
  | nil => intro m l _ _ p hp; simp [alignSplits] at hp
  | cons e rest ih =>
    intro m l hm hl p hp
    simp only [List.flatten_cons, List.length_append] at hm hl
    simp only [alignSplits, List.mem_cons] at hp
    rcases hp with rfl | hp
    · refine ⟨?_, ?_⟩ <;> simp only [List.length_take] <;> omega
    · refine ih (m.drop e.length) (l.drop e.length) ?_ ?_ p hp <;>
        simp only [List.length_drop] <;> omega

theorem commentTriples_aligned (σ : Type)
    (dataset : List (List (List ℤ) × List (List ℤ) × List (List ℤ) × σ))
    (user_token_indices : List ℤ) (eos_token_id : ℤ)
    (hds : ∀ entry ∈ dataset, ∀ row ∈ entry.1.zip (entry.2.1.zip entry.2.2.1),
      row.2.1.length = row.1.length ∧ row.2.2.length = row.1.length) :
    ∀ p ∈ commentTriples dataset user_token_indices eos_token_id,
      p.2.1.length = p.1.length ∧ p.2.2.length = p.1.length := by
  intro p hp
  simp only [commentTriples, List.mem_flatMap] at hp
  obtain ⟨entry, hentry, row, hrow, hp⟩ := hp
  have hr := hds entry hentry row hrow
  have hflat : (split_encoding row.1 user_token_indices eos_token_id).flatten =
      truncAtEos eos_token_id row.1 := by
    simpa using splitLoop_flatten user_token_indices eos_token_id row.1 [] []
  have hle : (split_encoding row.1 user_token_indices eos_token_id).flatten.length ≤
      row.1.length := by
    rw [hflat]; exact truncAtEos_length_le eos_token_id row.1
  exact alignSplits_aligned _ row.2.1 row.2.2 (by omega) (by omega) p hp

theorem cwLoop_aligned (pt pl : ℤ) (ml bs : ℕ) :
    ∀ (triples : List (List ℤ × List ℤ × List ℤ)) (bt bm bl : List (List ℤ)) (i : ℕ),
      (∀ p ∈ triples, p.2.1.length = p.1.length ∧ p.2.2.length = p.1.length) →
      bm.map List.length = bt.map List.length →
      bl.map List.length = bt.map List.length →
      ∀ b ∈ cwLoop pt pl ml bs triples bt bm bl i,
        b.2.1.map List.length = b.1.map List.length ∧
        b.2.2.map List.length = b.1.map List.length := by
  intro triples
  induction triples with
  | nil => intro bt bm bl i _ _ _ b hb; simp [cwLoop] at hb
  | cons p rest ih =>
    intro bt bm bl i htr hm hl b hb
    obtain ⟨t, m, l⟩ := p
    have hp := htr (t, m, l) (List.mem_cons_self _ _)
    have htl := fun q hq => htr q (List.mem_cons_of_mem _ hq)
    have hm' : (bm ++ [m.take ml]).map List.length = (bt ++ [t.take ml]).map List.length := by
      simp only [List.map_append, List.map_cons, List.map_nil, hm, List.length_take]
      rw [hp.1]
    have hl' : (bl ++ [l.take ml]).map List.length = (bt ++ [t.take ml]).map List.length := by
      simp only [List.map_append, List.map_cons, List.map_nil, hl, List.length_take]
      rw [hp.2]
    simp only [cwLoop] at hb
    split_ifs at hb with hmod
    · simp only [List.mem_cons] at hb
      rcases hb with rfl | hb
      · refine ⟨?_, ?_⟩ <;> simp only
        · rw [padBatchD_map_length, padBatchD_map_length, hm']
          have : (bm ++ [m.take ml]).length = (bt ++ [t.take ml]).length := by
            have := congrArg List.length hm'; simpa using this
          rw [this]
        · rw [padBatchD_map_length, padBatchD_map_length, hl']
          have : (bl ++ [l.take ml]).length = (bt ++ [t.take ml]).length := by
            have := congrArg List.length hl'; simpa using this
          rw [this]
      · exact ih [] [] [] (i + 1) htl rfl rfl b hb
    · exact ih (bt ++ [t.take ml]) (bm ++ [m.take ml]) (bl ++ [l.take ml]) (i + 1)
        htl hm' hl' b hb

/-- C1: whenever the thread-level token, mask and label rows of the input
dataset are aligned 1:1, every batch emitted by `get_comment_wise_dataset`
has, for every row index `i`, token, mask and label rows of equal length. -/
theorem C1_comment_wise_rows_aligned (σ : Type)
    (dataset : List (List (List ℤ) × List (List ℤ) × List (List ℤ) × σ))
    (user_token_indices : List ℤ) (eos_token_id pad_token_id pad_label : ℤ)
    (max_len batch_size : ℕ)
    (hds : ∀ entry ∈ dataset, ∀ row ∈ entry.1.zip (entry.2.1.zip entry.2.2.1),
      row.2.1.length = row.1.length ∧ row.2.2.length = row.1.length) :
    ∀ b ∈ get_comment_wise_dataset dataset user_token_indices eos_token_id
        pad_token_id pad_label max_len batch_size,
      ∀ i : ℕ, (b.1.getD i []).length = (b.2.1.getD i []).length ∧
               (b.1.getD i []).length = (b.2.2.getD i []).length := by
  intro b hb i
  have halign := cwLoop_aligned pad_token_id pad_label max_len batch_size
    (commentTriples dataset user_token_indices eos_token_id) [] [] [] 0
    (commentTriples_aligned σ dataset user_token_indices eos_token_id hds)
    rfl rfl b hb
  constructor
  · rw [getD_length_eq, getD_length_eq, halign.1]
  · rw [getD_length_eq, getD_length_eq, halign.2]

/-- Witness for C1 at a concrete single-thread dataset. -/
theorem C1_comment_wise_rows_aligned_witness :
    (∀ entry ∈ ([([[1, 100, 2, 999]], [[5, 6, 7, 8]], [[0, 1, 2, 0]], ())] :
        List (List (List ℤ) × List (List ℤ) × List (List ℤ) × Unit)),
      ∀ row ∈ entry.1.zip (entry.2.1.zip entry.2.2.1),
        row.2.1.length = row.1.length ∧ row.2.2.length = row.1.length) ∧
    (∀ b ∈ get_comment_wise_dataset
        ([([[1, 100, 2, 999]], [[5, 6, 7, 8]], [[0, 1, 2, 0]], ())] :
          List (List (List ℤ) × List (List ℤ) × List (List ℤ) × Unit))
        [100] 999 0 0 512 2,
      ∀ i : ℕ, (b.1.getD i []).length = (b.2.1.getD i []).length ∧
               (b.1.getD i []).length = (b.2.2.getD i []).length) :=
  ⟨by decide,
   C1_comment_wise_rows_aligned Unit
     [([[1, 100, 2, 999]], [[5, 6, 7, 8]], [[0, 1, 2, 0]], ())]
     [100] 999 0 0 512 2 (by decide)⟩

/-! ## Lemmas about the generator: emitted batch sizes (C3) -/

theorem mod_succ_eq_zero_imp {i bs : ℕ} (hbs : 0 < bs) (h : (i + 1) % bs = 0) :
    i % bs + 1 = bs := by
  have hd : bs ∣ i + 1 := Nat.dvd_of_mod_eq_zero h
  have hsplit : bs * (i / bs) + i % bs = i := Nat.div_add_mod i bs
  have hd2 : bs ∣ i % bs + 1 := by
    have heq : i + 1 = bs * (i / bs) + (i % bs + 1) := by omega
    rw [heq] at hd
    exact (Nat.dvd_add_right ⟨i / bs, rfl⟩).mp hd
  have hlt : i % bs < bs := Nat.mod_lt _ hbs
  have := Nat.le_of_dvd (Nat.succ_pos _) hd2
  omega

theorem mod_succ_of_ne {i bs : ℕ} (hbs : 0 < bs) (h : (i + 1) % bs ≠ 0) :
    (i + 1) % bs = i % bs + 1 := by
  have hlt : i % bs < bs := Nat.mod_lt _ hbs
  have hsplit : bs * (i / bs) + i % bs = i := Nat.div_add_mod i bs
  have h1 : i + 1 = bs * (i / bs) + (i % bs + 1) := by omega
  rcases Nat.lt_or_ge (i % bs + 1) bs with hc | hc
  · rw [h1, Nat.mul_add_mod, Nat.mod_eq_of_lt hc]
  · exfalso
    apply h
    have hb : i % bs + 1 = bs := by omega
    rw [h1, hb, Nat.mul_add_mod, Nat.mod_self]

theorem cwLoop_batch_sizes (pt pl : ℤ) (ml bs : ℕ) (hbs : 0 < bs) :
    ∀ (triples : List (List ℤ × List ℤ × List ℤ)) (bt bm bl : List (List ℤ)) (i : ℕ),
      bt.length = i % bs → bm.length = bt.length → bl.length = bt.length →
      ∀ b ∈ cwLoop pt pl ml bs triples bt bm bl i,
        b.1.length = bs ∧ b.2.1.length = bs ∧ b.2.2.length = bs := by
  intro triples
  induction triples with
  | nil => intro bt bm bl i _ _ _ b hb; simp [cwLoop] at hb
  | cons p rest ih =>
    intro bt bm bl i hbt hbm hbl b hb
    obtain ⟨t, m, l⟩ := p
    simp only [cwLoop] at hb
    split_ifs at hb with hmod
    · simp only [List.mem_cons] at hb
      rcases hb with rfl | hb
      · have hfull : bt.length + 1 = bs := by
          rw [hbt]; exact mod_succ_eq_zero_imp hbs hmod
        refine ⟨?_, ?_, ?_⟩ <;> simp only <;> rw [padBatchD_length] <;>
          simp only [List.length_append, List.length_cons, List.length_nil] <;> omega
      · exact ih [] [] [] (i + 1) (by simp [hmod]) rfl rfl b hb
    · refine ih (bt ++ [t.take ml]) (bm ++ [m.take ml]) (bl ++ [l.take ml]) (i + 1)
        ?_ ?_ ?_ b hb <;> simp only [List.length_append, List.length_cons, List.length_nil]
      · rw [mod_succ_of_ne hbs hmod, hbt]
      · omega
      · omega

/-- Concrete two-thread input for the C3 scenario: each thread splits into 3
comments at the sentinel id 100 and the terminator id 999. -/
def scenarioDataset : List (List (List ℤ) × List (List ℤ) × List (List ℤ) × Unit) :=
  [([[1, 100, 2, 100, 3, 999], [7, 100, 8, 100, 9, 999]],
    [[10, 11, 12, 13, 14, 15], [20, 21, 22, 23, 24, 25]],
    [[0, 1, 2, 3, 4, 0], [0, 3, 4, 1, 2, 0]], ())]

/-- C3: every emitted batch has exactly `batch_size` rows in each of the three
streams, and on the two-thread scenario (each thread splitting into 3
comments) with generator batch size 4, exactly one batch of 4 triples is
emitted while the remaining 2 of the 6 accumulated triples are dropped. -/
theorem C3_generator_batch_sizes :
    (∀ (σ : Type) (dataset : List (List (List ℤ) × List (List ℤ) × List (List ℤ) × σ))
       (user_token_indices : List ℤ) (eos_token_id pad_token_id pad_label : ℤ)
       (max_len batch_size : ℕ), 0 < batch_size →
       ∀ b ∈ get_comment_wise_dataset dataset user_token_indices eos_token_id
           pad_token_id pad_label max_len batch_size,
         b.1.length = batch_size ∧ b.2.1.length = batch_size ∧ b.2.2.length = batch_size) ∧
    (split_encoding [1, 100, 2, 100, 3, 999] [100] 999).length = 3 ∧
    (split_encoding [7, 100, 8, 100, 9, 999] [100] 999).length = 3 ∧
    (commentTriples scenarioDataset [100] 999).length = 6 ∧
    (get_comment_wise_dataset scenarioDataset [100] 999 0 0 512 4).length = 1 ∧
    (∀ b ∈ get_comment_wise_dataset scenarioDataset [100] 999 0 0 512 4,
      b.1.length = 4) := by
  refine ⟨?_, by decide, by decide, by decide, by decide, by decide⟩
  intro σ dataset user_token_indices eos_token_id pad_token_id pad_label ml bs hbs b hb
  exact cwLoop_batch_sizes pad_token_id pad_label ml bs hbs
    (commentTriples dataset user_token_indices eos_token_id) [] [] [] 0
    (by simp) rfl rfl b hb

/-- Witness for C3's quantified clause at the concrete scenario. -/
theorem C3_generator_batch_sizes_witness :
    0 < 4 ∧
    (∀ b ∈ get_comment_wise_dataset scenarioDataset [100] 999 0 0 512 4,
      b.1.length = 4 ∧ b.2.1.length = 4 ∧ b.2.2.length = 4) :=
  ⟨by decide,
   C3_generator_batch_sizes.1 Unit scenarioDataset [100] 999 0 0 512 4 (by decide)⟩

/-! ## Claims C5 and C9 -/

/-- C5: the result of `compute` does not depend on the second component of its
batch tuple, in decode mode and in both loss modes: the pad mask is derived
from the tokens alone and the second component is never read. -/
theorem C5_compute_ignores_second_component
    (encoder : List (List ℤ) → List (List ℕ) → List (List (List ℝ)))
    (crf_log_likelihood : List (List (List ℝ)) → List (List ℤ) → List (List ℕ) → ℝ)
    (viterbi_tags : List (List (List ℝ)) → List (List ℕ) → List (List ℕ × ℝ))
    (pad_token_id : ℤ)
    (tokenized_threads m1 m2 comp_type_labels : List (List ℤ))
    (preds cross_entropy : Bool) :
    compute encoder crf_log_likelihood viterbi_tags pad_token_id
      (tokenized_threads, m1, comp_type_labels) preds cross_entropy =
    compute encoder crf_log_likelihood viterbi_tags pad_token_id
      (tokenized_threads, m2, comp_type_labels) preds cross_entropy := rfl

/-- C9: with `all_classes` set, the tag scheme has seven tags including
`B-MC` (id 5) and `I-MC` (id 6), and the CRF and linear projection are sized
for all seven, yet every pair of `allowed_transitions` mentions only
ids 0 through 4. -/
theorem C9_allowed_transitions_skip_mc_tags :
    all_classes = true ∧
    arg_components.length = 7 ∧
    ("B-MC", 5) ∈ arg_components ∧ ("I-MC", 6) ∈ arg_components ∧
    crf_num_tags = 7 ∧ linear_out_features = 7 ∧
    ∀ p ∈ allowed_transitions, p.1 ≤ 4 ∧ p.2 ≤ 4 := by decide

/-! ## Claim C8: the training loop -/

theorem trainLoop_eq_chunks : ∀ (losses : List ℚ) (i : ℕ), i % 4 = 0 →
    trainLoop losses i = trainChunksRef losses
  | [], _, _ => by simp [trainLoop, trainChunksRef]
  | [a], i, h => by
    have e0 : ¬ i % 4 = 3 := by omega
    simp [trainLoop, trainChunksRef, accumulate_over, e0]
  | [a, b], i, h => by
    have e0 : ¬ i % 4 = 3 := by omega
    have e1 : ¬ (i + 1) % 4 = 3 := by omega
    simp [trainLoop, trainChunksRef, accumulate_over, e0, e1]
  | [a, b, c], i, h => by
    have e0 : ¬ i % 4 = 3 := by omega
    have e1 : ¬ (i + 1) % 4 = 3 := by omega
    have e2 : ¬ (i + 2) % 4 = 3 := by omega
    simp [trainLoop, trainChunksRef, accumulate_over, e0, e1, e2]
  | a :: b :: c :: d :: rest, i, h => by
    have e0 : ¬ i % 4 = 3 := by omega
    have e1 : ¬ (i + 1) % 4 = 3 := by omega
    have e2 : ¬ (i + 1 + 1) % 4 = 3 := by omega
    have e3 : (i + 1 + 1 + 1) % 4 = 3 := by omega
    have ih := trainLoop_eq_chunks rest (i + 1 + 1 + 1 + 1) (by omega)
    have hle : 4 ≤ (a :: b :: c :: d :: rest).length := by simp
    rw [trainChunksRef, dif_neg (by simp : ¬ (a :: b :: c :: d :: rest) = ([] : List ℚ)),
      if_pos hle]
    simp [trainLoop, accumulate_over, e0, e1, e2, e3, ih]

/-- C8: the trace of `train` is exactly: one initial gradient reset, then the
per-batch losses each scaled by the configured batch-size constant and
backpropagated, an optimizer step followed by a gradient reset after every
4th accumulated batch, and one final unconditional optimizer step after the
loop; the scaling constant is 512*8 = 4096 and the accumulation window is 4. -/
theorem C8_train_trace (losses : List ℚ) :
    train losses = TrainEvent.zero_grad :: (trainChunksRef losses ++ [TrainEvent.step]) ∧
    config_batch_size = 4096 ∧ accumulate_over = 4 := by
  refine ⟨?_, rfl, rfl⟩
  rw [train, trainLoop_eq_chunks losses 0 rfl]
  simp

/-! ## Lemmas about the cross-entropy path of `compute` (C4, C10) -/

theorem cross_entropy_weights_length : cross_entropy_weights.length = 5 := rfl

theorem padMaskOf_mem_flatten (pad : ℤ) (toks : List (List ℤ)) :
    ∀ m ∈ (padMaskOf pad toks).flatten, m = 0 ∨ m = 1 := by
  intro m hm
  simp only [padMaskOf, List.mem_flatten, List.mem_map] at hm
  obtain ⟨row, ⟨r, _, rfl⟩, hmrow⟩ := hm
  simp only [List.mem_map] at hmrow
  obtain ⟨t, _, rfl⟩ := hmrow
  split_ifs <;> simp

theorem optionSum_cons_some (a : ℝ) (l : List (Option ℝ)) (S : ℝ)
    (h : optionSum l = some S) : optionSum (some a :: l) = some (a + S) := by
  rw [optionSum, h]
  rfl

theorem optionSum_eq_none_of_mem (l : List (Option ℝ)) (h : none ∈ l) :
    optionSum l = none := by
  induction l with
  | nil => simp at h
  | cons o rest ih =>
    rcases List.mem_cons.mp h with rfl | hrest
    · rw [optionSum]
      rfl
    · rw [optionSum, ih hrest]
      cases o <;> rfl

theorem optionSum_masked_ce (w : List ℝ) :
    ∀ (ms : List ℕ) (xs : List (List ℝ)) (ys : List ℤ),
      (∀ m ∈ ms, m = 0 ∨ m = 1) →
      (∀ x ∈ xs, x.length = w.length) →
      (∀ y ∈ ys, 0 ≤ y ∧ y.toNat < w.length) →
      optionSum ((ms.zip (xs.zip ys)).map
        (fun p => (ceToken w p.2.1 p.2.2).map (fun v => (p.1 : ℝ) * v))) =
      some (maskedCESum w ms xs ys) := by
  intro ms
  induction ms with
  | nil => intro xs ys _ _ _; simp [optionSum, maskedCESum]
  | cons m ms ih =>
    intro xs ys hm hx hy
    cases xs with
    | nil => simp [optionSum, maskedCESum]
    | cons x xs =>
      cases ys with
      | nil => simp [optionSum, maskedCESum]
      | cons y ys =>
        have hx0 := hx x (List.mem_cons_self _ _)
        have hy0 := hy y (List.mem_cons_self _ _)
        have hm0 := hm m (List.mem_cons_self _ _)
        have hce : ceToken w x y = some (ceRaw w x y) := by
          unfold ceToken ceRaw
          rw [if_pos ⟨hx0, hy0.1, hy0.2⟩]
        have ihh := ih xs ys (fun a ha => hm a (List.mem_cons_of_mem _ ha))
          (fun a ha => hx a (List.mem_cons_of_mem _ ha))
          (fun a ha => hy a (List.mem_cons_of_mem _ ha))
        simp only [List.zip_cons_cons, List.map_cons, hce, Option.map_some']
        rw [optionSum_cons_some _ _ _ ihh]
        rcases hm0 with rfl | rfl
        · simp [maskedCESum, List.filter_cons]
        · simp [maskedCESum, List.filter_cons]

/-! ## Claim C4: the combined loss -/

/-- C4 (amended): in loss mode with the cross-entropy option enabled and a
well-typed batch, `compute` returns the padding-masked, class-weighted
per-token cross-entropy summed over the non-pad positions (with no length
normalization) plus the negative of the CRF log-likelihood. -/
theorem C4_combined_loss_is_sum_plus_nll
    (encoder : List (List ℤ) → List (List ℕ) → List (List (List ℝ)))
    (crf_log_likelihood : List (List (List ℝ)) → List (List ℤ) → List (List ℕ) → ℝ)
    (viterbi_tags : List (List (List ℝ)) → List (List ℕ) → List (List ℕ × ℝ))
    (pad_token_id : ℤ)
    (tokenized_threads token_type_ids comp_type_labels : List (List ℤ))
    (hwidth : ∀ x ∈ (encoder tokenized_threads
        (padMaskOf pad_token_id tokenized_threads)).flatten,
      x.length = cross_entropy_weights.length)
    (hrange : ∀ y ∈ comp_type_labels.flatten,
      0 ≤ y ∧ y.toNat < cross_entropy_weights.length) :
    compute encoder crf_log_likelihood viterbi_tags pad_token_id
      (tokenized_threads, token_type_ids, comp_type_labels) false true =
    Sum.inr (some
      (maskedCESum cross_entropy_weights
        (padMaskOf pad_token_id tokenized_threads).flatten
        (encoder tokenized_threads (padMaskOf pad_token_id tokenized_threads)).flatten
        comp_type_labels.flatten +
       -(crf_log_likelihood
          (encoder tokenized_threads (padMaskOf pad_token_id tokenized_threads))
          comp_type_labels
          (padMaskOf pad_token_id tokenized_threads)))) := by
  have hms := padMaskOf_mem_flatten pad_token_id tokenized_threads
  have hunfold : compute encoder crf_log_likelihood viterbi_tags pad_token_id
      (tokenized_threads, token_type_ids, comp_type_labels) false true =
    Sum.inr ((optionSum (((padMaskOf pad_token_id tokenized_threads).flatten.zip
        ((encoder tokenized_threads (padMaskOf pad_token_id tokenized_threads)).flatten.zip
          comp_type_labels.flatten)).map
        (fun p => (ceToken cross_entropy_weights p.2.1 p.2.2).map
          (fun v => (p.1 : ℝ) * v)))).map
      (fun s => s - crf_log_likelihood
        (encoder tokenized_threads (padMaskOf pad_token_id tokenized_threads))
        comp_type_labels (padMaskOf pad_token_id tokenized_threads))) := rfl
  rw [hunfold, optionSum_masked_ce cross_entropy_weights _ _ _ hms hwidth hrange,
    Option.map_some', sub_eq_add_neg]

/-- Constant encoder giving every position a zero score row of width 5, used
for concrete instantiations of the head. -/
noncomputable def zeroEncoder5 : List (List ℤ) → List (List ℕ) → List (List (List ℝ)) :=
  fun toks _ => toks.map (fun row => row.map (fun _ => List.replicate 5 (0 : ℝ)))

/-- Constant encoder giving every position a zero score row of width 7 (the
configured tag count), used for concrete instantiations of the head. -/
noncomputable def zeroEncoder7 : List (List ℤ) → List (List ℕ) → List (List (List ℝ)) :=
  fun toks _ => toks.map (fun row => row.map (fun _ => List.replicate 7 (0 : ℝ)))

theorem ceRaw_zero_row_pos :
    0 < ceRaw cross_entropy_weights (List.replicate 5 (0 : ℝ)) 0 := by
  have h1 : logSumExp (List.replicate 5 (0 : ℝ)) = Real.log 5 := by
    simp only [logSumExp, List.map_replicate, Real.exp_zero, List.sum_replicate]
    norm_num
  have h2 : ceRaw cross_entropy_weights (List.replicate 5 (0 : ℝ)) 0 =
      Real.log 3.3102 * (logSumExp (List.replicate 5 (0 : ℝ)) - 0) := rfl
  rw [h2, h1, sub_zero]
  exact mul_pos (Real.log_pos (by norm_num)) (Real.log_pos (by norm_num))

/-- Witness for C4 (amended) at a concrete batch of one row with two non-pad
positions, the zero encoder of width 5 and a zero CRF log-likelihood. -/
theorem C4_combined_loss_is_sum_plus_nll_witness :
    (∀ x ∈ (zeroEncoder5 [[1, 1]] (padMaskOf 0 [[1, 1]])).flatten,
      x.length = cross_entropy_weights.length) ∧
    (∀ y ∈ ([[0, 0]] : List (List ℤ)).flatten,
      0 ≤ y ∧ y.toNat < cross_entropy_weights.length) ∧
    compute zeroEncoder5 (fun _ _ _ => 0) (fun _ _ => []) 0
      ([[1, 1]], [[0, 0]], [[0, 0]]) false true =
    Sum.inr (some
      (maskedCESum cross_entropy_weights (padMaskOf 0 [[1, 1]]).flatten
        (zeroEncoder5 [[1, 1]] (padMaskOf 0 [[1, 1]])).flatten
        ([[0, 0]] : List (List ℤ)).flatten +
       -((fun _ _ _ => (0 : ℝ)) (zeroEncoder5 [[1, 1]] (padMaskOf 0 [[1, 1]]))
          ([[0, 0]] : List (List ℤ)) (padMaskOf 0 [[1, 1]])))) :=
  ⟨by decide, by decide,
   C4_combined_loss_is_sum_plus_nll zeroEncoder5 (fun _ _ _ => 0) (fun _ _ => []) 0
     [[1, 1]] [[0, 0]] [[0, 0]] (by decide) (by decide)⟩

/-- Counterexample to C4 as stated: on a batch with two non-pad positions the
combined loss returned by `compute` is the plain masked sum, which differs
from the length-normalized masked cross-entropy plus the negative CRF
log-likelihood. -/
theorem C4_combined_loss_counterexample :
    compute zeroEncoder5 (fun _ _ _ => 0) (fun _ _ => []) 0
      ([[1, 1]], [[0, 0]], [[0, 0]]) false true ≠
    Sum.inr (some
      (maskedCEMean cross_entropy_weights (padMaskOf 0 [[1, 1]]).flatten
        (zeroEncoder5 [[1, 1]] (padMaskOf 0 [[1, 1]])).flatten
        ([[0, 0]] : List (List ℤ)).flatten +
       -(0 : ℝ))) := by
  intro h
  set c := ceRaw cross_entropy_weights (List.replicate 5 (0 : ℝ)) 0 with hc
  have hL : compute zeroEncoder5 (fun _ _ _ => 0) (fun _ _ => []) 0
      ([[1, 1]], [[0, 0]], [[0, 0]]) false true =
      Sum.inr (some ((((1 : ℕ) : ℝ) * c + (((1 : ℕ) : ℝ) * c + 0)) - 0)) := rfl
  have hR : maskedCEMean cross_entropy_weights (padMaskOf 0 [[1, 1]]).flatten
      (zeroEncoder5 [[1, 1]] (padMaskOf 0 [[1, 1]])).flatten
      ([[0, 0]] : List (List ℤ)).flatten = (c + (c + 0)) / ((2 : ℕ) : ℝ) := rfl
  rw [hL, hR] at h
  have heq : (((1 : ℕ) : ℝ) * c + (((1 : ℕ) : ℝ) * c + 0)) - 0 =
      (c + (c + 0)) / ((2 : ℕ) : ℝ) + -(0 : ℝ) := by
    have := Sum.inr.inj h
    exact Option.some.inj this
  have hcpos := ceRaw_zero_row_pos
  rw [← hc] at hcpos
  have h2 : ((2 : ℕ) : ℝ) = 2 := by norm_num
  rw [h2] at heq
  nlinarith [heq, hcpos]

/-! ## Claim C10: weight vector shorter than the tag count -/

/-- C10: the cross-entropy class-weight vector has exactly 5 entries while
the tag scheme, the linear projection and the CRF use 7 tags; hence the
combined-loss path of `compute` is undefined for aligned batches whose
label ids include 5 or 6. -/
theorem C10_weight_vector_shorter_than_tag_count :
    cross_entropy_weights.length = 5 ∧
    crf_num_tags = 7 ∧ linear_out_features = 7 ∧
    cross_entropy_weights.length < crf_num_tags ∧
    ∀ (encoder : List (List ℤ) → List (List ℕ) → List (List (List ℝ)))
      (crf_log_likelihood : List (List (List ℝ)) → List (List ℤ) → List (List ℕ) → ℝ)
      (viterbi_tags : List (List (List ℝ)) → List (List ℕ) → List (List ℕ × ℝ))
      (pad_token_id : ℤ) (toks tt labels : List (List ℤ)),
      (∀ x ∈ (encoder toks (padMaskOf pad_token_id toks)).flatten,
        x.length = crf_num_tags) →
      (padMaskOf pad_token_id toks).flatten.length = labels.flatten.length →
      (encoder toks (padMaskOf pad_token_id toks)).flatten.length =
        labels.flatten.length →
      ((5 : ℤ) ∈ labels.flatten ∨ (6 : ℤ) ∈ labels.flatten) →
      compute encoder crf_log_likelihood viterbi_tags pad_token_id
        (toks, tt, labels) false true = Sum.inr none := by
  refine ⟨rfl, rfl, rfl, by decide, ?_⟩
  intro encoder crf_log_likelihood viterbi_tags pad_token_id toks tt labels
    hwidth hmlen hxlen hlab
  have hy : ∃ y : ℤ, y ∈ labels.flatten := by
    rcases hlab with h5 | h6
    · exact ⟨5, h5⟩
    · exact ⟨6, h6⟩
  obtain ⟨y, hymem⟩ := hy
  obtain ⟨⟨k, hk⟩, hyk⟩ := List.mem_iff_get.mp hymem
  have hkm : k < (padMaskOf pad_token_id toks).flatten.length := by omega
  have hkx : k < (encoder toks (padMaskOf pad_token_id toks)).flatten.length := by omega
  set ms := (padMaskOf pad_token_id toks).flatten with hms
  set xs := (encoder toks (padMaskOf pad_token_id toks)).flatten with hxs
  set ys := labels.flatten with hys
  have hxy : (xs.zip ys).get? k = some (xs.get ⟨k, hkx⟩, y) := by
    rw [List.get?_zip_eq_some]
    exact ⟨List.get?_eq_get hkx, by rw [List.get?_eq_get hk, hyk]⟩
  have hzip : (ms.zip (xs.zip ys)).get? k =
      some (ms.get ⟨k, hkm⟩, (xs.get ⟨k, hkx⟩, y)) := by
    rw [List.get?_zip_eq_some]
    exact ⟨List.get?_eq_get hkm, hxy⟩
  have hpin := List.get?_mem hzip
  have hcen : ceToken cross_entropy_weights (xs.get ⟨k, hkx⟩) y = none := by
    unfold ceToken
    rw [if_neg]
    intro hcond
    have hx7 : (xs.get ⟨k, hkx⟩).length = crf_num_tags :=
      hwidth _ (List.get_mem xs k hkx)
    rw [hx7] at hcond
    exact absurd hcond.1 (by decide)
  have hnone : (none : Option ℝ) ∈ ((ms.zip (xs.zip ys)).map
      (fun p => (ceToken cross_entropy_weights p.2.1 p.2.2).map
        (fun v => (p.1 : ℝ) * v))) :=
    List.mem_map.mpr ⟨_, hpin, by rw [hcen]; rfl⟩
  have hunfold : compute encoder crf_log_likelihood viterbi_tags pad_token_id
      (toks, tt, labels) false true =
    Sum.inr ((optionSum ((ms.zip (xs.zip ys)).map
        (fun p => (ceToken cross_entropy_weights p.2.1 p.2.2).map
          (fun v => (p.1 : ℝ) * v)))).map
      (fun s => s - crf_log_likelihood
        (encoder toks (padMaskOf pad_token_id toks)) labels
        (padMaskOf pad_token_id toks))) := rfl
  rw [hunfold, optionSum_eq_none_of_mem _ hnone]
  rfl

/-- Witness for C10 at a concrete batch whose single label id is 5. -/
theorem C10_weight_vector_shorter_than_tag_count_witness :
    (∀ x ∈ (zeroEncoder7 [[1]] (padMaskOf 0 [[1]])).flatten,
      x.length = crf_num_tags) ∧
    ((5 : ℤ) ∈ ([[5]] : List (List ℤ)).flatten ∨
     (6 : ℤ) ∈ ([[5]] : List (List ℤ)).flatten) ∧
    compute zeroEncoder7 (fun _ _ _ => 0) (fun _ _ => []) 0
      ([[1]], [[0]], [[5]]) false true = Sum.inr none :=
  ⟨by decide, by decide,
   C10_weight_vector_shorter_than_tag_count.2.2.2.2 zeroEncoder7
     (fun _ _ _ => 0) (fun _ _ => []) 0 [[1]] [[0]] [[5]]
     (by decide) rfl rfl (by decide)⟩

end ArgMining
